import Mathlib

/-
Verification of the Gray World color-cast correction core
(`correct_color_cast` in src/correct.py) against its design document.

Modelling choices:
* An image is a row-major grid of BGR pixels; 8-bit channel samples are
  naturals (valid samples lie in [0,255]).
* All floating-point intermediates of the source (float32 planes, channel
  means, scale factors, blend arithmetic) are modelled as exact rationals.
* `np.clip(x, 0, 255).astype(np.uint8)` is clip followed by truncation
  toward zero (`truncU8`).
* `cv2.addWeighted(src1, alpha, src2, beta, 0)` on uint8 arrays computes
  `saturate_cast<uchar>(alpha*src1 + beta*src2)`, i.e. round to nearest,
  ties to even (`rne`), then saturation to [0,255] (`roundSatU8`).
* The channel-generic variant `correct_color_cast_gen` keeps the channel
  count of the ndarray shape explicit, so that the three-way unpacking
  `b, g, r = cv2.split(img_float)` and its ValueError on non-3-channel
  input are representable.
-/

namespace LessY

/-- A BGR pixel: blue, green and red channel samples. -/
abbrev Pixel : Type := ℕ × ℕ × ℕ

/-- An image: H rows of W pixels, row-major, as an ndarray of shape (H, W, 3). -/
abbrev Image : Type := List (List Pixel)

/-- Number of pixels H·W of the image. -/
def pixelCount (img : Image) : ℕ := (img.map List.length).sum

/-- Sum of all blue samples of the image. -/
def sumB (img : Image) : ℕ := (img.map (fun row => (row.map (fun p => p.1)).sum)).sum

/-- Sum of all green samples of the image. -/
def sumG (img : Image) : ℕ := (img.map (fun row => (row.map (fun p => p.2.1)).sum)).sum

/-- Sum of all red samples of the image. -/
def sumR (img : Image) : ℕ := (img.map (fun row => (row.map (fun p => p.2.2)).sum)).sum

/-- `avg_b = np.mean(b)`: mean of the blue plane (exact rational for float32). -/
def avgB (img : Image) : ℚ := (sumB img : ℚ) / (pixelCount img : ℚ)

/-- `avg_g = np.mean(g)`: mean of the green plane. -/
def avgG (img : Image) : ℚ := (sumG img : ℚ) / (pixelCount img : ℚ)

/-- `avg_r = np.mean(r)`: mean of the red plane. -/
def avgR (img : Image) : ℚ := (sumR img : ℚ) / (pixelCount img : ℚ)

/-- `avg_gray = (avg_b + avg_g + avg_r) / 3.0`. -/
def avgGray (img : Image) : ℚ := (avgB img + avgG img + avgR img) / 3

/-- `np.clip(q, 0, 255)`. -/
def clip255 (q : ℚ) : ℚ := max 0 (min 255 q)

/-- `np.clip(q, 0, 255).astype(np.uint8)`: clip, then truncate toward zero. -/
def truncU8 (q : ℚ) : ℕ := (clip255 q).floor.toNat

/-- Round to nearest integer, ties to even (the rounding of cvRound, used by
OpenCV saturate_cast when converting the addWeighted result to uint8). -/
def rne (q : ℚ) : ℤ :=
  let n := q.floor
  let r := q - (n : ℚ)
  if r < 1/2 then n
  else if 1/2 < r then n + 1
  else if n % 2 = 0 then n else n + 1

/-- `saturate_cast<uchar>`: round to nearest (ties to even), saturate to [0,255]. -/
def roundSatU8 (q : ℚ) : ℕ := (max 0 (min 255 (rne q))).toNat

/-- One pixel of the fully corrected image: each channel sample multiplied by
its scale factor, clipped to [0,255] and truncated to uint8. -/
def scalePixel (sb sg sr : ℚ) (p : Pixel) : Pixel :=
  (truncU8 ((p.1 : ℚ) * sb), truncU8 ((p.2.1 : ℚ) * sg), truncU8 ((p.2.2 : ℚ) * sr))

/-- The fully Gray-World-corrected image (src lines 26-47): per-channel scale
factors `avg_gray / avg_c` applied elementwise, then clip and uint8 cast. -/
def fullCorrected (img : Image) : Image :=
  img.map (fun row => row.map (scalePixel
    (avgGray img / avgB img) (avgGray img / avgG img) (avgGray img / avgR img)))

/-- One output pixel of `cv2.addWeighted(src1, alpha, src2, beta, 0)`. -/
def blendPix (alpha beta : ℚ) (p q : Pixel) : Pixel :=
  (roundSatU8 (alpha * (p.1 : ℚ) + beta * (q.1 : ℚ)),
   roundSatU8 (alpha * (p.2.1 : ℚ) + beta * (q.2.1 : ℚ)),
   roundSatU8 (alpha * (p.2.2 : ℚ) + beta * (q.2.2 : ℚ)))

/-- `cv2.addWeighted(src1, alpha, src2, beta, 0)` on uint8 images. -/
def addWeighted (src1 : Image) (alpha : ℚ) (src2 : Image) (beta : ℚ) : Image :=
  List.zipWith (fun r1 r2 => List.zipWith (blendPix alpha beta) r1 r2) src1 src2

/-- Shallow embedding of `correct_color_cast(image, strength)`
(src/correct.py lines 8-57):
strength-0 short-circuit, channel means, zero-mean short-circuit, full Gray
World correction, strength-1 short-circuit, and the addWeighted blend
`(1 - strength) * original + strength * fully_corrected`. -/
def correct_color_cast (image : Image) (strength : ℚ) : Image :=
  if strength = 0 then image
  else if avgB image = 0 ∨ avgG image = 0 ∨ avgR image = 0 then image
  else if strength = 1 then fullCorrected image
  else addWeighted image (1 - strength) (fullCorrected image) strength

/-- The channel sample of `img` at row `i`, column `j`, channel `c`
(0 = blue, 1 = green, 2 = red); 0 outside the grid. -/
def sampleAt (img : Image) (i j c : ℕ) : ℕ :=
  if c = 0 then ((img.getD i []).getD j (0, 0, 0)).1
  else if c = 1 then ((img.getD i []).getD j (0, 0, 0)).2.1
  else ((img.getD i []).getD j (0, 0, 0)).2.2

/-- Every channel sample of the image is a valid 8-bit value. -/
def validSamples (img : Image) : Prop :=
  ∀ row ∈ img, ∀ p ∈ row, p.1 ≤ 255 ∧ p.2.1 ≤ 255 ∧ p.2.2 ≤ 255

instance decidableValidSamples (img : Image) : Decidable (validSamples img) :=
  inferInstanceAs (Decidable (∀ row ∈ img, ∀ p ∈ row,
    p.1 ≤ 255 ∧ p.2.1 ≤ 255 ∧ p.2.2 ≤ 255))

/-- The list of row widths of an image; two images have equal `rowLengths`
precisely when they have the same H and the same W in every row. -/
def rowLengths (img : Image) : List ℕ := img.map List.length

/-- Written from the specification text, steps 3-8 of the algorithm: per-channel
means `avg_c`, target gray `(avg_0 + avg_1 + avg_2) / 3`, scale factors
`avg_gray / avg_c`, elementwise multiplication, clip to [0,255] and truncation
to an 8-bit unsigned integer. Refinement target for the full-correction claim. -/
def grayWorldFull_spec (img : Image) : Image :=
  let n : ℚ := (pixelCount img : ℚ)
  let avg0 : ℚ := (sumB img : ℚ) / n
  let avg1 : ℚ := (sumG img : ℚ) / n
  let avg2 : ℚ := (sumR img : ℚ) / n
  let gray : ℚ := (avg0 + avg1 + avg2) / 3
  img.map (fun row => row.map (fun p =>
    ((max 0 (min 255 ((p.1 : ℚ) * (gray / avg0)))).floor.toNat,
     (max 0 (min 255 ((p.2.1 : ℚ) * (gray / avg1)))).floor.toNat,
     (max 0 (min 255 ((p.2.2 : ℚ) * (gray / avg2)))).floor.toNat)))

/-- Aliasing model of the source: `true` exactly on the code paths that return
the input ndarray object itself instead of a freshly allocated array, namely
the `return image` statements at src lines 23 (strength == 0) and 36 (a channel
mean is zero). All other paths return arrays freshly allocated by
`astype`/`cv2.merge`/`np.clip`/`cv2.addWeighted`. -/
def returnsInputObject (image : Image) (strength : ℚ) : Bool :=
  decide (strength = 0 ∨ avgB image = 0 ∨ avgG image = 0 ∨ avgR image = 0)

/-- A raw ndarray image of shape (H, W, channels): the channel count of the
shape is explicit, each pixel is the list of its channel samples. -/
structure ImageG where
  channels : ℕ
  data : List (List (List ℕ))
deriving DecidableEq

/-- Channel plane `c` of the image, as extracted by `cv2.split`. -/
def plane (img : ImageG) (c : ℕ) : List (List ℕ) :=
  img.data.map (fun row => row.map (fun px => px.getD c 0))

/-- `cv2.split(img_float)`: the list of all channel planes. -/
def splitChannels (img : ImageG) : List (List (List ℕ)) :=
  (List.range img.channels).map (plane img)

/-- Number of samples of one channel plane. -/
def planeCount (p : List (List ℕ)) : ℕ := (p.map List.length).sum

/-- Sum of the samples of one channel plane. -/
def planeSum (p : List (List ℕ)) : ℕ := (p.map List.sum).sum

/-- `np.mean` of one channel plane. -/
def planeMean (p : List (List ℕ)) : ℚ := (planeSum p : ℚ) / (planeCount p : ℚ)

/-- A channel plane multiplied elementwise by a scale factor, in float. -/
def scalePlane (s : ℚ) (p : List (List ℕ)) : List (List ℚ) :=
  p.map (fun row => row.map (fun x => (x : ℚ) * s))

/-- `cv2.merge([b, g, r])` of three float planes. -/
def merge3 (b g r : List (List ℚ)) : List (List (List ℚ)) :=
  List.zipWith3 (fun rb rg rr => List.zipWith3 (fun x y z => [x, y, z]) rb rg rr) b g r

/-- `np.clip(d, 0, 255).astype(np.uint8)` on a merged float array. -/
def clipCast (d : List (List (List ℚ))) : List (List (List ℕ)) :=
  d.map (List.map (List.map truncU8))

/-- `cv2.addWeighted` on raw ndarrays of any channel count. -/
def addWeightedG (src1 : List (List (List ℕ))) (alpha : ℚ)
    (src2 : List (List (List ℕ))) (beta : ℚ) : List (List (List ℕ)) :=
  List.zipWith (fun r1 r2 => List.zipWith (fun p1 p2 =>
    List.zipWith (fun (x y : ℕ) => roundSatU8 (alpha * (x : ℚ) + beta * (y : ℚ))) p1 p2) r1 r2) src1 src2

/-- Body of `correct_color_cast` after the successful three-way unpacking
`b, g, r = cv2.split(img_float)` (src lines 29-57). -/
def grayWorldG (img : ImageG) (strength : ℚ) (b g r : List (List ℕ)) :
    Except String ImageG :=
  let avg_b := planeMean b
  let avg_g := planeMean g
  let avg_r := planeMean r
  let avg_gray := (avg_b + avg_g + avg_r) / 3
  if avg_b = 0 ∨ avg_g = 0 ∨ avg_r = 0 then Except.ok img
  else
    let full := clipCast (merge3
      (scalePlane (avg_gray / avg_b) b)
      (scalePlane (avg_gray / avg_g) g)
      (scalePlane (avg_gray / avg_r) r))
    if strength = 1 then Except.ok ⟨img.channels, full⟩
    else Except.ok ⟨img.channels, addWeightedG img.data (1 - strength) full strength⟩

/-- Shallow embedding of `correct_color_cast` on a raw ndarray of arbitrary
channel count: the three-way unpacking of `cv2.split` raises ValueError unless
the image has exactly 3 channels; the strength-0 short-circuit precedes it. -/
def correct_color_cast_gen (img : ImageG) (strength : ℚ) : Except String ImageG :=
  if strength = 0 then Except.ok img
  else
    match splitChannels img with
    | [b, g, r] => grayWorldG img strength b g r
    | _ => Except.error "ValueError: not enough values to unpack"

/-- Concrete 2x2 image with channel means 100, 150, 200 (the spec scenario). -/
def img2x2 : Image :=
  [[(100, 150, 200), (100, 150, 200)], [(100, 150, 200), (100, 150, 200)]]

/-- Concrete 1x1 image with pixel (b=100, g=150, r=200). -/
def img1px : Image := [[(100, 150, 200)]]

/-- Concrete image whose blue channel is entirely black. -/
def imgZeroB : Image := [[(0, 50, 100)]]

/-- Concrete gray-balanced image: all three channel means equal 20. -/
def imgBal : Image := [[(10, 10, 10), (30, 30, 30)]]

/-- Concrete raw single-channel (grayscale) ndarray. -/
def imgG1 : ImageG := ⟨1, [[[7]]]⟩

/-- Concrete raw 3-channel ndarray whose channels are entirely black. -/
def imgG3 : ImageG := ⟨3, [[[0, 0, 0]]]⟩

/-! ### Arithmetic helper lemmas -/

theorem rat_floor_eq_floor (q : ℚ) : q.floor = ⌊q⌋ :=
  le_antisymm (Int.le_floor.2 (Rat.le_floor.1 le_rfl)) (Rat.le_floor.2 (Int.floor_le q))

theorem rne_eq (q : ℚ) :
    rne q = if q - ⌊q⌋ < 1/2 then ⌊q⌋
      else if 1/2 < q - ⌊q⌋ then ⌊q⌋ + 1
      else if ⌊q⌋ % 2 = 0 then ⌊q⌋ else ⌊q⌋ + 1 := by
  unfold rne
  rw [rat_floor_eq_floor]

theorem rne_mono {q r : ℚ} (h : q ≤ r) : rne q ≤ rne r := by
  rw [rne_eq, rne_eq]
  have hf : ⌊q⌋ ≤ ⌊r⌋ := Int.floor_le_floor h
  rcases eq_or_lt_of_le hf with heq | hlt
  · rw [← heq]
    have hfr : q - (⌊q⌋ : ℚ) ≤ r - (⌊q⌋ : ℚ) := by linarith
    split_ifs <;> first | omega | linarith
  · split_ifs <;> omega

theorem rne_intCast (m : ℤ) : rne ((m : ℤ) : ℚ) = m := by
  rw [rne_eq]
  rw [Int.floor_intCast]
  norm_num

theorem rne_le_of_le {q : ℚ} {m : ℤ} (h : q ≤ (m : ℚ)) : rne q ≤ m := by
  have := rne_mono h
  rwa [rne_intCast] at this

theorem le_rne_of_le {q : ℚ} {m : ℤ} (h : (m : ℚ) ≤ q) : m ≤ rne q := by
  have := rne_mono h
  rwa [rne_intCast] at this

theorem clip255_nonneg (q : ℚ) : 0 ≤ clip255 q := le_max_left 0 _

theorem clip255_le (q : ℚ) : clip255 q ≤ 255 :=
  max_le (by norm_num) (min_le_left 255 q)

theorem clip255_eq_self {q : ℚ} (h0 : 0 ≤ q) (h255 : q ≤ 255) : clip255 q = q := by
  unfold clip255
  rw [min_eq_right h255, max_eq_right h0]

theorem truncU8_le (q : ℚ) : truncU8 q ≤ 255 := by
  unfold truncU8
  rw [rat_floor_eq_floor]
  have h1 : ⌊clip255 q⌋ ≤ 255 := by
    have := (Int.le_floor (α := ℚ) (z := ⌊clip255 q⌋)).1 le_rfl
    have h2 : ((⌊clip255 q⌋ : ℤ) : ℚ) ≤ 255 := this.trans (clip255_le q)
    exact_mod_cast h2
  omega

theorem truncU8_natCast {n : ℕ} (h : n ≤ 255) : truncU8 (n : ℚ) = n := by
  unfold truncU8
  rw [rat_floor_eq_floor, clip255_eq_self (by positivity) (by exact_mod_cast h)]
  rw [Int.floor_natCast]
  exact Int.toNat_natCast n

theorem roundSatU8_le (q : ℚ) : roundSatU8 q ≤ 255 := by
  unfold roundSatU8
  have h1 : max 0 (min 255 (rne q)) ≤ 255 := max_le (by norm_num) (min_le_left 255 _)
  omega

theorem roundSatU8_natCast {n : ℕ} (h : n ≤ 255) : roundSatU8 (n : ℚ) = n := by
  unfold roundSatU8
  have h1 : rne (n : ℚ) = (n : ℤ) := by
    have := rne_intCast (n : ℤ)
    rwa [Int.cast_natCast] at this
  rw [h1, min_eq_right (by exact_mod_cast h), max_eq_right (Int.natCast_nonneg n)]
  exact Int.toNat_natCast n

theorem roundSatU8_cast {q : ℚ} (h0 : 0 ≤ q) (h255 : q ≤ 255) :
    (roundSatU8 q : ℤ) = rne q := by
  have l1 : (0 : ℤ) ≤ rne q := le_rne_of_le (by exact_mod_cast h0)
  have l2 : rne q ≤ (255 : ℤ) := rne_le_of_le (by exact_mod_cast h255)
  unfold roundSatU8
  rw [min_eq_right l2, max_eq_right l1, Int.toNat_of_nonneg l1]

/-! ### List helper lemmas -/

theorem mem_zipWith {α β γ : Type} {f : α → β → γ} {x : γ} :
    ∀ {as : List α} {bs : List β}, x ∈ List.zipWith f as bs →
      ∃ a ∈ as, ∃ b ∈ bs, x = f a b := by
  intro as
  induction as with
  | nil => intro bs h; simp [List.zipWith] at h
  | cons a as ih =>
    intro bs h
    cases bs with
    | nil => simp [List.zipWith] at h
    | cons b bs =>
      simp only [List.zipWith, List.mem_cons] at h
      rcases h with h | h
      · exact ⟨a, by simp, b, by simp, h⟩
      · obtain ⟨a1, ha, b1, hb, hx⟩ := ih h
        exact ⟨a1, by simp [ha], b1, by simp [hb], hx⟩

theorem getD_of_le {α : Type} :
    ∀ (l : List α) (i : ℕ) (d : α), l.length ≤ i → l.getD i d = d := by
  intro l
  induction l with
  | nil => intro i d _; cases i <;> rfl
  | cons a l ih =>
    intro i d h
    cases i with
    | zero => simp at h
    | succ n => exact ih n d (by simpa using h)

theorem getD_map_of_lt {α β : Type} (f : α → β) :
    ∀ (l : List α) (i : ℕ) (d : α) (db : β), i < l.length →
      (l.map f).getD i db = f (l.getD i d) := by
  intro l
  induction l with
  | nil => intro i d db h; simp at h
  | cons a l ih =>
    intro i d db h
    cases i with
    | zero => rfl
    | succ n => exact ih n d db (by simpa using h)

theorem getD_zipWith_of_lt {α β γ : Type} (f : α → β → γ) :
    ∀ (as : List α) (bs : List β) (i : ℕ) (da : α) (db : β) (dc : γ),
      i < as.length → i < bs.length →
      (List.zipWith f as bs).getD i dc = f (as.getD i da) (bs.getD i db) := by
  intro as
  induction as with
  | nil => intro bs i da db dc h _; simp at h
  | cons a as ih =>
    intro bs i da db dc ha hb
    cases bs with
    | nil => simp at hb
    | cons b bs =>
      cases i with
      | zero => rfl
      | succ n => exact ih bs n da db dc (by simpa using ha) (by simpa using hb)

theorem rowLengths_map_map {f : Pixel → Pixel} (img : Image) :
    rowLengths (img.map (fun row => row.map f)) = rowLengths img := by
  unfold rowLengths
  rw [List.map_map]
  apply List.map_congr_left
  intro row _
  simp

theorem rowLengths_fullCorrected (img : Image) :
    rowLengths (fullCorrected img) = rowLengths img :=
  rowLengths_map_map img

theorem rowLengths_zipWith_rows {f : Pixel → Pixel → Pixel} :
    ∀ (as bs : Image), rowLengths as = rowLengths bs →
      rowLengths (List.zipWith (fun r1 r2 => List.zipWith f r1 r2) as bs) = rowLengths as := by
  intro as
  induction as with
  | nil => intro bs _; rfl
  | cons a as ih =>
    intro bs h
    cases bs with
    | nil => simp [rowLengths] at h
    | cons b bs =>
      simp only [rowLengths, List.zipWith_cons_cons, List.map_cons, List.cons.injEq] at h ⊢
      refine ⟨?_, ?_⟩
      · rw [List.length_zipWith, h.1, min_self]
      · exact ih bs h.2

theorem rowLengths_addWeighted (a : Image) (al : ℚ) (b : Image) (be : ℚ)
    (h : rowLengths a = rowLengths b) :
    rowLengths (addWeighted a al b be) = rowLengths a :=
  rowLengths_zipWith_rows a b h

theorem length_eq_of_rowLengths {a b : Image} (h : rowLengths a = rowLengths b) :
    a.length = b.length := by
  have := congrArg List.length h
  simpa [rowLengths] using this

theorem validSamples_fullCorrected (img : Image) : validSamples (fullCorrected img) := by
  intro row hrow p hp
  obtain ⟨row0, _, rfl⟩ := List.mem_map.1 hrow
  obtain ⟨p0, _, rfl⟩ := List.mem_map.1 hp
  exact ⟨truncU8_le _, truncU8_le _, truncU8_le _⟩

theorem validSamples_addWeighted (a : Image) (al : ℚ) (b : Image) (be : ℚ) :
    validSamples (addWeighted a al b be) := by
  intro row hrow p hp
  obtain ⟨r1, _, r2, _, rfl⟩ := mem_zipWith hrow
  obtain ⟨p1, _, p2, _, rfl⟩ := mem_zipWith hp
  exact ⟨roundSatU8_le _, roundSatU8_le _, roundSatU8_le _⟩

theorem sampleAt_le_255 (img : Image) (hv : validSamples img) (i j c : ℕ) :
    sampleAt img i j c ≤ 255 := by
  unfold sampleAt
  have hrow : img.getD i [] ∈ img ∨ img.getD i [] = ([] : List Pixel) := by
    clear hv
    induction img generalizing i with
    | nil => right; cases i <;> rfl
    | cons a l ih =>
      cases i with
      | zero => left; simp
      | succ n =>
        rcases ih n with h | h
        · left; exact List.mem_cons_of_mem a h
        · right; simpa using h
  rcases hrow with hrow | hrow
  · have hp : (img.getD i []).getD j (0, 0, 0) ∈ img.getD i [] ∨
        (img.getD i []).getD j (0, 0, 0) = ((0, 0, 0) : Pixel) := by
      clear hv hrow
      generalize img.getD i [] = row
      induction row generalizing j with
      | nil => right; cases j <;> rfl
      | cons a l ih =>
        cases j with
        | zero => left; simp
        | succ n =>
          rcases ih n with h | h
          · left; exact List.mem_cons_of_mem a h
          · right; simpa using h
    rcases hp with hp | hp
    · have := hv _ hrow _ hp
      split_ifs <;> omega
    · rw [hp]; split_ifs <;> norm_num
  · rw [hrow]
    split_ifs <;> norm_num

/-! ### Branch lemmas for the core function -/

theorem correct_strength_zero (img : Image) : correct_color_cast img 0 = img := by
  unfold correct_color_cast
  rw [if_pos rfl]

theorem correct_degenerate (img : Image) (s : ℚ)
    (hz : avgB img = 0 ∨ avgG img = 0 ∨ avgR img = 0) :
    correct_color_cast img s = img := by
  unfold correct_color_cast
  by_cases h1 : s = 0
  · rw [if_pos h1]
  · rw [if_neg h1, if_pos hz]

theorem correct_nondegen_one (img : Image)
    (hnd : ¬(avgB img = 0 ∨ avgG img = 0 ∨ avgR img = 0)) :
    correct_color_cast img 1 = fullCorrected img := by
  unfold correct_color_cast
  rw [if_neg one_ne_zero, if_neg hnd, if_pos rfl]

theorem correct_blend_eq (img : Image) (s : ℚ) (hs0 : s ≠ 0) (hs1 : s ≠ 1)
    (hnd : ¬(avgB img = 0 ∨ avgG img = 0 ∨ avgR img = 0)) :
    correct_color_cast img s = addWeighted img (1 - s) (fullCorrected img) s := by
  unfold correct_color_cast
  rw [if_neg hs0, if_neg hnd, if_neg hs1]

theorem sampleAt_of_len_le (img : Image) (i j c : ℕ) (hi : img.length ≤ i) :
    sampleAt img i j c = 0 := by
  unfold sampleAt
  rw [getD_of_le img i [] hi]
  split_ifs <;> cases j <;> rfl

theorem sampleAt_of_row_len_le (img : Image) (i j c : ℕ)
    (hj : (img.getD i []).length ≤ j) :
    sampleAt img i j c = 0 := by
  unfold sampleAt
  rw [getD_of_le _ j (0, 0, 0) hj]
  split_ifs <;> rfl

theorem sampleAt_addWeighted (a b : Image) (al be : ℚ) (i j c : ℕ)
    (hc : rowLengths a = rowLengths b)
    (hi : i < a.length) (hj : j < (a.getD i []).length) :
    sampleAt (addWeighted a al b be) i j c =
      roundSatU8 (al * (sampleAt a i j c : ℚ) + be * (sampleAt b i j c : ℚ)) := by
  have hib : i < b.length := length_eq_of_rowLengths hc ▸ hi
  have hrow : (a.getD i []).length = (b.getD i []).length := by
    have h1 := getD_map_of_lt List.length a i [] 0 hi
    have h2 := getD_map_of_lt List.length b i [] 0 hib
    have hc2 : List.map List.length a = List.map List.length b := hc
    rw [hc2] at h1
    rw [← h1, ← h2]
  have hjb : j < (b.getD i []).length := hrow ▸ hj
  have houter : (addWeighted a al b be).getD i [] =
      List.zipWith (blendPix al be) (a.getD i []) (b.getD i []) := by
    unfold addWeighted
    exact getD_zipWith_of_lt _ a b i [] [] [] hi hib
  have hinner : (List.zipWith (blendPix al be) (a.getD i []) (b.getD i [])).getD j (0, 0, 0) =
      blendPix al be ((a.getD i []).getD j (0, 0, 0)) ((b.getD i []).getD j (0, 0, 0)) :=
    getD_zipWith_of_lt (blendPix al be) _ _ j (0, 0, 0) (0, 0, 0) (0, 0, 0) hj hjb
  unfold sampleAt
  rw [houter, hinner]
  unfold blendPix
  split_ifs <;> rfl

theorem sampleAt_correct (img : Image) (hv : validSamples img)
    (hnd : ¬(avgB img = 0 ∨ avgG img = 0 ∨ avgR img = 0))
    (s : ℚ) (h1 : s ≤ 1) (i j c : ℕ)
    (hi : i < img.length) (hj : j < (img.getD i []).length) :
    sampleAt (correct_color_cast img s) i j c =
      roundSatU8 ((1 - s) * (sampleAt img i j c : ℚ) +
        s * (sampleAt (fullCorrected img) i j c : ℚ)) := by
  by_cases hs : s = 0
  · subst hs
    rw [correct_strength_zero]
    have he : (1 - (0:ℚ)) * (sampleAt img i j c : ℚ) +
        0 * (sampleAt (fullCorrected img) i j c : ℚ) = ((sampleAt img i j c : ℕ) : ℚ) := by
      ring
    rw [he, roundSatU8_natCast (sampleAt_le_255 img hv i j c)]
  · by_cases hs1 : s = 1
    · subst hs1
      rw [correct_nondegen_one img hnd]
      have he : (1 - (1:ℚ)) * (sampleAt img i j c : ℚ) +
          1 * (sampleAt (fullCorrected img) i j c : ℚ) =
          ((sampleAt (fullCorrected img) i j c : ℕ) : ℚ) := by
        ring
      rw [he, roundSatU8_natCast (sampleAt_le_255 _ (validSamples_fullCorrected img) i j c)]
    · rw [correct_blend_eq img s hs hs1 hnd]
      exact sampleAt_addWeighted img (fullCorrected img) (1 - s) s i j c
        (rowLengths_fullCorrected img).symm hi hj

/-- Scalar core of the monotone-blend property: for samples o and f in [0,255],
the distance of the rounded, saturated blend from o is non-decreasing in the
blend weight on [0,1]. -/
theorem blend_dist_mono (o f : ℕ) (ho : o ≤ 255) (hf : f ≤ 255)
    (s1 s2 : ℚ) (h0 : 0 ≤ s1) (h12 : s1 ≤ s2) (h21 : s2 ≤ 1) :
    ((roundSatU8 ((1 - s1) * (o : ℚ) + s1 * (f : ℚ)) : ℤ) - (o : ℤ)).natAbs ≤
    ((roundSatU8 ((1 - s2) * (o : ℚ) + s2 * (f : ℚ)) : ℤ) - (o : ℤ)).natAbs := by
  have hoQ : (0 : ℚ) ≤ (o : ℚ) := Nat.cast_nonneg o
  have hfQ : (0 : ℚ) ≤ (f : ℚ) := Nat.cast_nonneg f
  have hoQ255 : (o : ℚ) ≤ 255 := by exact_mod_cast ho
  have hfQ255 : (f : ℚ) ≤ 255 := by exact_mod_cast hf
  rcases le_total (o : ℚ) (f : ℚ) with hle | hle
  · -- o ≤ f: the blend moves upward from o toward f
    have hv1o : (o : ℚ) ≤ (1 - s1) * o + s1 * f := by nlinarith
    have hv12 : (1 - s1) * (o : ℚ) + s1 * f ≤ (1 - s2) * o + s2 * f := by nlinarith
    have hv2f : (1 - s2) * (o : ℚ) + s2 * f ≤ f := by nlinarith
    have hb1 : (0 : ℚ) ≤ (1 - s1) * o + s1 * f := le_trans hoQ hv1o
    have hb2 : (1 - s1) * (o : ℚ) + s1 * f ≤ 255 := le_trans (le_trans hv12 hv2f) hfQ255
    have hb3 : (0 : ℚ) ≤ (1 - s2) * o + s2 * f := le_trans hoQ (le_trans hv1o hv12)
    have hb4 : (1 - s2) * (o : ℚ) + s2 * f ≤ 255 := le_trans hv2f hfQ255
    rw [roundSatU8_cast hb1 hb2, roundSatU8_cast hb3 hb4]
    have m12 : rne ((1 - s1) * (o : ℚ) + s1 * f) ≤ rne ((1 - s2) * o + s2 * f) :=
      rne_mono hv12
    have mo : (o : ℤ) ≤ rne ((1 - s1) * (o : ℚ) + s1 * f) :=
      le_rne_of_le (by push_cast; exact hv1o)
    omega
  · -- f ≤ o: the blend moves downward from o toward f
    have hv1o : (1 - s1) * (o : ℚ) + s1 * f ≤ o := by nlinarith
    have hv12 : (1 - s2) * (o : ℚ) + s2 * f ≤ (1 - s1) * o + s1 * f := by nlinarith
    have hv2f : (f : ℚ) ≤ (1 - s2) * o + s2 * f := by nlinarith
    have hb1 : (0 : ℚ) ≤ (1 - s1) * o + s1 * f := le_trans hfQ (le_trans hv2f hv12)
    have hb2 : (1 - s1) * (o : ℚ) + s1 * f ≤ 255 := le_trans hv1o hoQ255
    have hb3 : (0 : ℚ) ≤ (1 - s2) * o + s2 * f := le_trans hfQ hv2f
    have hb4 : (1 - s2) * (o : ℚ) + s2 * f ≤ 255 := le_trans (le_trans hv12 hv1o) hoQ255
    rw [roundSatU8_cast hb1 hb2, roundSatU8_cast hb3 hb4]
    have m12 : rne ((1 - s2) * (o : ℚ) + s2 * f) ≤ rne ((1 - s1) * o + s1 * f) :=
      rne_mono hv12
    have mo : rne ((1 - s1) * (o : ℚ) + s1 * f) ≤ (o : ℤ) :=
      rne_le_of_le (by push_cast; exact hv1o)
    omega

/-! ### Lemmas for the channel-generic model -/

theorem length_splitChannels (img : ImageG) :
    (splitChannels img).length = img.channels := by
  simp [splitChannels]

theorem gen_strength_zero (img : ImageG) :
    correct_color_cast_gen img 0 = Except.ok img := by
  unfold correct_color_cast_gen
  rw [if_pos rfl]

theorem gen_of_split3 (img : ImageG) (s : ℚ) (b g r : List (List ℕ))
    (h : splitChannels img = [b, g, r]) (hs : s ≠ 0) :
    correct_color_cast_gen img s = grayWorldG img s b g r := by
  unfold correct_color_cast_gen
  rw [if_neg hs, h]

theorem splitChannels_of_channels_eq_3 (img : ImageG) (hC : img.channels = 3) :
    splitChannels img = [plane img 0, plane img 1, plane img 2] := by
  unfold splitChannels
  rw [hC]
  rfl

theorem gen_error_of_channels_ne_3 (img : ImageG) (s : ℚ) (hs : s ≠ 0)
    (hC : img.channels ≠ 3) :
    correct_color_cast_gen img s =
      Except.error "ValueError: not enough values to unpack" := by
  have hlen : (splitChannels img).length ≠ 3 := by
    rw [length_splitChannels]
    exact hC
  unfold correct_color_cast_gen
  rw [if_neg hs]
  rcases hsp : splitChannels img with _ | ⟨p1, _ | ⟨p2, _ | ⟨p3, _ | ⟨p4, t⟩⟩⟩⟩
  · rfl
  · rfl
  · rfl
  · exact absurd (by rw [hsp]; rfl) hlen
  · rfl

/-! ### Claim theorems -/

/-- Claim C1: for every valid 3-channel image, `correct_color_cast` at full
strength computes the Gray World correction exactly as specified: per-channel
means, target gray `(avg_0 + avg_1 + avg_2) / 3`, scale factors
`avg_gray / avg_c`, elementwise multiplication, clip to [0,255] and truncation
to uint8 (the scenario values are checked in the witness). -/
theorem claim_C1 (img : Image)
    (hb : avgB img ≠ 0) (hg : avgG img ≠ 0) (hr : avgR img ≠ 0) :
    correct_color_cast img 1 = grayWorldFull_spec img := by
  have hnd : ¬(avgB img = 0 ∨ avgG img = 0 ∨ avgR img = 0) := by
    rintro (h | h | h)
    exacts [hb h, hg h, hr h]
  rw [correct_nondegen_one img hnd]
  rfl

unseal Rat.add Rat.sub Rat.mul Rat.inv in
/-- Witness for C1, the scenario of the spec: a 2x2 image with channel means
100, 150, 200, hence avg_gray 150 and scale factors 3/2, 1, 3/4; the pixel
(100, 150, 200) maps to (150, 150, 150) at strength 1 and to (125, 150, 175)
at strength 1/2. -/
theorem claim_C1_witness :
    avgB img2x2 = 100 ∧ avgG img2x2 = 150 ∧ avgR img2x2 = 200 ∧
    avgGray img2x2 = 150 ∧
    avgGray img2x2 / avgB img2x2 = 3/2 ∧
    avgGray img2x2 / avgG img2x2 = 1 ∧
    avgGray img2x2 / avgR img2x2 = 3/4 ∧
    correct_color_cast img2x2 1 = grayWorldFull_spec img2x2 ∧
    correct_color_cast img2x2 1 =
      [[(150, 150, 150), (150, 150, 150)], [(150, 150, 150), (150, 150, 150)]] ∧
    correct_color_cast img2x2 (1/2) =
      [[(125, 150, 175), (125, 150, 175)], [(125, 150, 175), (125, 150, 175)]] :=
  ⟨by decide, by decide, by decide, by decide, by decide, by decide, by decide,
   claim_C1 img2x2 (by decide) (by decide) (by decide), by decide, by decide⟩

/-- Claim C2: for every image I, `correct_color_cast I 0` returns I
byte-for-byte (identity at strength 0). -/
theorem claim_C2 (img : Image) : correct_color_cast img 0 = img :=
  correct_strength_zero img

/-- Claim C3: if at least one channel mean is exactly 0 and the strength is
positive, `correct_color_cast` returns the input image unchanged. -/
theorem claim_C3 (img : Image) (s : ℚ) (hs : 0 < s)
    (hz : avgB img = 0 ∨ avgG img = 0 ∨ avgR img = 0) :
    correct_color_cast img s = img :=
  correct_degenerate img s hz

unseal Rat.add Rat.sub Rat.mul Rat.inv in
/-- Witness for C3: an image whose blue channel is entirely black is returned
unchanged at strength 1/2. -/
theorem claim_C3_witness :
    (0 : ℚ) < 1/2 ∧ avgB imgZeroB = 0 ∧
    correct_color_cast imgZeroB (1/2) = imgZeroB :=
  ⟨by norm_num, by decide,
   claim_C3 imgZeroB (1/2) (by norm_num) (Or.inl (by decide))⟩

/-- Claim C4: for every valid input image and strength in [0,1], the output
has the same height and the same width in every row, and every output channel
sample is an 8-bit value in [0,255] (saturated, never wrapped). -/
theorem claim_C4 (img : Image) (s : ℚ) (h0 : 0 ≤ s) (h1 : s ≤ 1)
    (hv : validSamples img) :
    rowLengths (correct_color_cast img s) = rowLengths img ∧
    validSamples (correct_color_cast img s) := by
  by_cases hs : s = 0
  · subst hs
    rw [correct_strength_zero]
    exact ⟨rfl, hv⟩
  · by_cases hz : avgB img = 0 ∨ avgG img = 0 ∨ avgR img = 0
    · rw [correct_degenerate img s hz]
      exact ⟨rfl, hv⟩
    · by_cases hs1 : s = 1
      · subst hs1
        rw [correct_nondegen_one img hz]
        exact ⟨rowLengths_fullCorrected img, validSamples_fullCorrected img⟩
      · rw [correct_blend_eq img s hs hs1 hz]
        exact ⟨rowLengths_addWeighted _ _ _ _ (rowLengths_fullCorrected img).symm,
          validSamples_addWeighted _ _ _ _⟩

unseal Rat.add Rat.sub Rat.mul Rat.inv in
/-- Witness for C4 at the default UI strength 9/10. -/
theorem claim_C4_witness :
    rowLengths (correct_color_cast img2x2 (9/10)) = rowLengths img2x2 ∧
    validSamples (correct_color_cast img2x2 (9/10)) :=
  claim_C4 img2x2 (9/10) (by norm_num) (by norm_num) (by decide)

unseal Rat.add Rat.sub Rat.mul Rat.inv in
/-- Counterexample to C5 as stated: at strength 2 the code does not behave as
if the strength had been clamped to [0,1]: on a 1x1 image with pixel
(100, 150, 200) it extrapolates to (200, 150, 100), while the clamped
computation (strength 1) yields (150, 150, 150). -/
theorem claim_C5_counterexample :
    correct_color_cast img1px 2 ≠ correct_color_cast img1px (max 0 (min 1 (2 : ℚ))) := by
  decide

/-- Claim C5 as amended: the code does not clamp an out-of-range strength; for
any strength other than 0 and 1 (in range or not) it applies the addWeighted
blend with the raw strength value, and every output sample is still saturated
to [0,255]. -/
theorem claim_C5 (img : Image) (s : ℚ) (hs0 : s ≠ 0) (hs1 : s ≠ 1)
    (hb : avgB img ≠ 0) (hg : avgG img ≠ 0) (hr : avgR img ≠ 0) :
    correct_color_cast img s = addWeighted img (1 - s) (fullCorrected img) s ∧
    validSamples (correct_color_cast img s) := by
  have hnd : ¬(avgB img = 0 ∨ avgG img = 0 ∨ avgR img = 0) := by
    rintro (h | h | h)
    exacts [hb h, hg h, hr h]
  refine ⟨correct_blend_eq img s hs0 hs1 hnd, ?_⟩
  rw [correct_blend_eq img s hs0 hs1 hnd]
  exact validSamples_addWeighted _ _ _ _

unseal Rat.add Rat.sub Rat.mul Rat.inv in
/-- Witness for the amended C5 at the out-of-range strength 2. -/
theorem claim_C5_witness :
    correct_color_cast img1px 2 = addWeighted img1px (1 - 2) (fullCorrected img1px) 2 ∧
    validSamples (correct_color_cast img1px 2) :=
  claim_C5 img1px 2 (by norm_num) (by norm_num) (by decide) (by decide) (by decide)

/-- Claim C6: for a fixed valid image, at every pixel/channel position whose
original and fully corrected samples differ, the absolute distance between
`correct_color_cast img s` and the original at that position is non-decreasing
as s increases from 0 to 1. -/
theorem claim_C6 (img : Image) (i j c : ℕ) (s1 s2 : ℚ)
    (hv : validSamples img)
    (hdiff : sampleAt img i j c ≠ sampleAt (fullCorrected img) i j c)
    (h0 : 0 ≤ s1) (h12 : s1 ≤ s2) (h21 : s2 ≤ 1) :
    ((sampleAt (correct_color_cast img s1) i j c : ℤ) - (sampleAt img i j c : ℤ)).natAbs ≤
    ((sampleAt (correct_color_cast img s2) i j c : ℤ) - (sampleAt img i j c : ℤ)).natAbs := by
  by_cases hnd : avgB img = 0 ∨ avgG img = 0 ∨ avgR img = 0
  · rw [correct_degenerate img s1 hnd, correct_degenerate img s2 hnd]
  · have hfl : (fullCorrected img).length = img.length := by
      unfold fullCorrected
      exact List.length_map _ _
    have hi : i < img.length := by
      by_contra hni
      push_neg at hni
      have e1 := sampleAt_of_len_le img i j c hni
      have e2 := sampleAt_of_len_le (fullCorrected img) i j c (by rw [hfl]; exact hni)
      exact hdiff (e1.trans e2.symm)
    have hgetD : (fullCorrected img).getD i [] =
        (img.getD i []).map (scalePixel
          (avgGray img / avgB img) (avgGray img / avgG img) (avgGray img / avgR img)) := by
      unfold fullCorrected
      exact getD_map_of_lt _ img i [] [] hi
    have hj : j < (img.getD i []).length := by
      by_contra hnj
      push_neg at hnj
      have e1 := sampleAt_of_row_len_le img i j c hnj
      have e2 := sampleAt_of_row_len_le (fullCorrected img) i j c (by
        rw [hgetD, List.length_map]
        exact hnj)
      exact hdiff (e1.trans e2.symm)
    rw [sampleAt_correct img hv hnd s1 (le_trans h12 h21) i j c hi hj,
      sampleAt_correct img hv hnd s2 h21 i j c hi hj]
    exact blend_dist_mono (sampleAt img i j c) (sampleAt (fullCorrected img) i j c)
      (sampleAt_le_255 img hv i j c)
      (sampleAt_le_255 _ (validSamples_fullCorrected img) i j c)
      s1 s2 h0 h12 h21

unseal Rat.add Rat.sub Rat.mul Rat.inv in
/-- Witness for C6: on the 1x1 image with pixel (100, 150, 200), the blue
sample moves from distance 12 (strength 1/4) to distance 38 (strength 3/4). -/
theorem claim_C6_witness :
    sampleAt img1px 0 0 0 ≠ sampleAt (fullCorrected img1px) 0 0 0 ∧
    ((sampleAt (correct_color_cast img1px (1/4)) 0 0 0 : ℤ) -
      (sampleAt img1px 0 0 0 : ℤ)).natAbs ≤
    ((sampleAt (correct_color_cast img1px (3/4)) 0 0 0 : ℤ) -
      (sampleAt img1px 0 0 0 : ℤ)).natAbs :=
  ⟨by decide,
   claim_C6 img1px 0 0 0 (1/4) (3/4) (by decide) (by decide)
     (by norm_num) (by norm_num) (by norm_num)⟩

/-- Claim C7: an image whose three channel means are all equal and nonzero is
returned unchanged by full correction (indeed exactly, not only up to
rounding). -/
theorem claim_C7 (img : Image) (hv : validSamples img)
    (hbg : avgB img = avgG img) (hbr : avgB img = avgR img)
    (hnz : avgB img ≠ 0) :
    correct_color_cast img 1 = img := by
  have hnd : ¬(avgB img = 0 ∨ avgG img = 0 ∨ avgR img = 0) := by
    rintro (h | h | h)
    exacts [hnz h, hnz (hbg.trans h), hnz (hbr.trans h)]
  rw [correct_nondegen_one img hnd]
  have hgray : avgGray img = avgB img := by
    unfold avgGray
    rw [← hbg, ← hbr]
    ring
  have e1 : avgGray img / avgB img = 1 := by
    rw [hgray]
    exact div_self hnz
  have e2 : avgGray img / avgG img = 1 := by
    rw [hgray, hbg]
    exact div_self (hbg ▸ hnz)
  have e3 : avgGray img / avgR img = 1 := by
    rw [hgray, hbr]
    exact div_self (hbr ▸ hnz)
  unfold fullCorrected
  rw [e1, e2, e3]
  have hrows : ∀ row ∈ img, row.map (scalePixel 1 1 1) = row := by
    intro row hrow
    have hpix : ∀ p ∈ row, scalePixel 1 1 1 p = p := by
      intro p hp
      obtain ⟨h1, h2, h3⟩ := hv row hrow p hp
      rcases p with ⟨pb, pg, pr⟩
      unfold scalePixel
      simp only [mul_one]
      rw [truncU8_natCast h1, truncU8_natCast h2, truncU8_natCast h3]
    calc row.map (scalePixel 1 1 1) = row.map id :=
          List.map_congr_left (fun p hp => (hpix p hp).trans rfl)
      _ = row := List.map_id row
  calc img.map (fun row => row.map (scalePixel 1 1 1)) = img.map id :=
        List.map_congr_left (fun row hrow => (hrows row hrow).trans rfl)
    _ = img := List.map_id img

unseal Rat.add Rat.sub Rat.mul Rat.inv in
/-- Witness for C7: a balanced image (all three channel means 20) is a fixed
point of full correction. -/
theorem claim_C7_witness : correct_color_cast imgBal 1 = imgBal :=
  claim_C7 imgBal (by decide) (by decide) (by decide) (by decide)

/-- Claim C8: on every 3-channel image the generic embedding never returns an
error for any strength, and when some channel mean is zero and the strength is
nonzero it returns the unmodified input: the divisions by the channel means
are unreachable in that case because the zero-mean check precedes them. -/
theorem claim_C8 (img : ImageG) (s : ℚ) (hC : img.channels = 3) :
    (∃ out, correct_color_cast_gen img s = Except.ok out) ∧
    (s ≠ 0 →
      (planeMean (plane img 0) = 0 ∨ planeMean (plane img 1) = 0 ∨
        planeMean (plane img 2) = 0) →
      correct_color_cast_gen img s = Except.ok img) := by
  have hsp := splitChannels_of_channels_eq_3 img hC
  constructor
  · by_cases hs : s = 0
    · subst hs
      exact ⟨img, gen_strength_zero img⟩
    · rw [gen_of_split3 img s _ _ _ hsp hs]
      simp only [grayWorldG]
      by_cases hz : planeMean (plane img 0) = 0 ∨ planeMean (plane img 1) = 0 ∨
          planeMean (plane img 2) = 0
      · rw [if_pos hz]
        exact ⟨img, rfl⟩
      · rw [if_neg hz]
        by_cases hs1 : s = 1
        · rw [if_pos hs1]
          exact ⟨_, rfl⟩
        · rw [if_neg hs1]
          exact ⟨_, rfl⟩
  · intro hs hz
    rw [gen_of_split3 img s _ _ _ hsp hs]
    simp only [grayWorldG]
    rw [if_pos hz]

unseal Rat.add Rat.sub Rat.mul Rat.inv in
/-- Witness for C8: a 3-channel all-black 1x1 image is returned unchanged at
strength 1, with no error. -/
theorem claim_C8_witness :
    (∃ out, correct_color_cast_gen imgG3 1 = Except.ok out) ∧
    correct_color_cast_gen imgG3 1 = Except.ok imgG3 :=
  ⟨(claim_C8 imgG3 1 rfl).1,
   (claim_C8 imgG3 1 rfl).2 one_ne_zero (Or.inl (by decide))⟩

/-- Counterexample to C9 as stated: at strength 0 the function returns the
input ndarray object itself (src line 23), not a freshly allocated buffer, so
later mutation of the input is visible through the returned reference. -/
theorem claim_C9_counterexample : returnsInputObject img1px 0 = true := by
  decide

/-- Claim C9 as amended: the function never mutates its input and returns a
freshly allocated buffer on every path except the strength-0 and zero-mean
short-circuits, where it returns the input object itself; on those aliasing
paths the returned value is the unchanged input. -/
theorem claim_C9 (img : Image) (s : ℚ) :
    (returnsInputObject img s = true → correct_color_cast img s = img) ∧
    (s ≠ 0 → avgB img ≠ 0 → avgG img ≠ 0 → avgR img ≠ 0 →
      returnsInputObject img s = false) := by
  constructor
  · intro h
    have hp : s = 0 ∨ avgB img = 0 ∨ avgG img = 0 ∨ avgR img = 0 :=
      of_decide_eq_true h
    rcases hp with h0 | hz
    · subst h0
      exact correct_strength_zero img
    · exact correct_degenerate img s hz
  · intro hs hb hg hr
    unfold returnsInputObject
    apply decide_eq_false
    rintro (h | h | h | h)
    exacts [hs h, hb h, hg h, hr h]

unseal Rat.add Rat.sub Rat.mul Rat.inv in
/-- Witness for the amended C9: strength 0 takes an aliasing path and returns
the input unchanged; strength 1 on a nondegenerate image allocates freshly. -/
theorem claim_C9_witness :
    correct_color_cast img1px 0 = img1px ∧ returnsInputObject img1px 1 = false :=
  ⟨(claim_C9 img1px 0).1 (by decide),
   (claim_C9 img1px 1).2 one_ne_zero (by decide) (by decide) (by decide)⟩

/-- Claim C10: on an image without exactly 3 channels, strength 0 still
returns the input unchanged (no validation happens before the short-circuit),
and any nonzero strength hits the ValueError of the three-way unpacking of
`cv2.split` instead of a defined fallback. -/
theorem claim_C10 (img : ImageG) (s : ℚ) :
    (s = 0 → correct_color_cast_gen img s = Except.ok img) ∧
    (s ≠ 0 → img.channels ≠ 3 →
      correct_color_cast_gen img s =
        Except.error "ValueError: not enough values to unpack") := by
  constructor
  · intro h
    subst h
    exact gen_strength_zero img
  · intro hs hC
    exact gen_error_of_channels_ne_3 img s hs hC

/-- Witness for C10 on a single-channel image: identity at strength 0, and a
ValueError at strength 1/2. -/
theorem claim_C10_witness :
    correct_color_cast_gen imgG1 0 = Except.ok imgG1 ∧
    correct_color_cast_gen imgG1 (1/2) =
      Except.error "ValueError: not enough values to unpack" :=
  ⟨(claim_C10 imgG1 0).1 rfl,
   (claim_C10 imgG1 (1/2)).2 (by norm_num) (by decide)⟩

end LessY
